import Mathlib

/-!
Verification of `Storage::SparseIdsList`
(src/Telegram/SourceFiles/storage/storage_sparse_ids_list.cpp).

The C++ structure keeps a `base::flat_set` of slices, each slice a sorted
set of message identifiers together with a "no-skip" range over which the
set is complete.  We embed:

* `base::flat_set<MsgId>`   as a strictly sorted `List Nat`;
* `base::flat_set<Slice>`   as a `List Slice` sorted by range;
* `base::optional<int>`     as `Option Int`;
* binary searches (`base::lower_bound` / `base::upper_bound`) on the
  sorted slice list as `takeWhile` / `dropWhile` splits, which coincide
  with the C++ searches on lists satisfying the structure's ordering
  invariant;
* the `rpl` event stream as the explicit list of fired updates returned
  by every mutating operation.
-/

namespace Storage

/-- Upper sentinel bound of the message identifier space. -/
def ServerMaxMsgId : Nat := 1073741823

/-- A `(from, till)` interval of the identifier space (`from` is a Lean
keyword, hence the underscore). -/
structure MsgRange where
  from_ : Nat
  till : Nat
deriving DecidableEq

/-- One stored slice: the identifiers known inside `range`. -/
structure Slice where
  messages : List Nat
  range : MsgRange
deriving DecidableEq

/-- Insertion into a strictly sorted list, as `flat_set` insertion. -/
def insertSorted (x : Nat) : List Nat → List Nat
  | [] => [x]
  | y :: ys =>
    if x < y then x :: y :: ys
    else if x = y then y :: ys
    else y :: insertSorted x ys

/-- `flat_set::merge`: insert every element of `more` into the set `s`. -/
def uniteSorted (s : List Nat) (more : List Nat) : List Nat :=
  more.foldl (fun acc x => insertSorted x acc) s

/-- `SparseIdsList::Slice::merge`: union the identifier sets and extend the
range to the smallest interval covering both. -/
def Slice.merge (s : Slice) (moreMessages : List Nat) (moreNoSkipRange : MsgRange) : Slice :=
  ⟨uniteSorted s.messages moreMessages,
    ⟨min s.range.from_ moreNoSkipRange.from_, max s.range.till moreNoSkipRange.till⟩⟩

/-- The payload of one `_sliceUpdated` event. -/
structure SparseIdsSliceUpdate where
  messages : Option (List Nat)
  range : MsgRange
  count : Option Int
deriving DecidableEq

/-- `SparseIdsList::uniteAndAdd`: merge the new data into the first slice
of the run `first :: others`, fold every further slice of the run into it,
erase the rest, and report the fused slice and the growth of its set. -/
def uniteAndAdd (before : List Slice) (first : Slice) (others after : List Slice)
    (messages : List Nat) (noSkipRange : MsgRange) :
    List Slice × Option (List Nat × MsgRange) × Int :=
  (before
      ++ (others.foldl (fun acc s => acc.merge s.messages s.range)
          (first.merge messages noSkipRange)) :: after,
    some ((others.foldl (fun acc s => acc.merge s.messages s.range)
          (first.merge messages noSkipRange)).messages,
      (others.foldl (fun acc s => acc.merge s.messages s.range)
          (first.merge messages noSkipRange)).range),
    ((others.foldl (fun acc s => acc.merge s.messages s.range)
          (first.merge messages noSkipRange)).messages.length : Int)
      - (first.messages.length : Int))

/-- The branch of `SparseIdsList::addRangeItemsAndCountNew` after the two
binary searches: `mid = [uniteFrom, uniteTill)` is the run of slices
overlapping or touching the new range; a non-empty run is fused via
`uniteAndAdd`, an empty run leads to `_slices.emplace`. -/
def addRangeMerge (before mid after : List Slice) (messages : List Nat)
    (noSkipRange : MsgRange) : List Slice × Option (List Nat × MsgRange) × Int :=
  match mid with
  | [] =>
    (before ++ Slice.mk (uniteSorted [] messages) noSkipRange :: after,
      some (uniteSorted [] messages, noSkipRange),
      ((uniteSorted [] messages).length : Int))
  | first :: others => uniteAndAdd before first others after messages noSkipRange

/-- `SparseIdsList::addRangeItemsAndCountNew`: return early on a zero-width
range, otherwise split the slice list at the run overlapping or touching
`noSkipRange` (the `lower_bound` / `upper_bound` searches, expressed as
`takeWhile` / `dropWhile` on the sorted list) and merge.  Returns the new
slice list, the update payload (`none` on the early return) and the number
of new identifiers. -/
def addRangeItemsAndCountNew (slices : List Slice) (messages : List Nat)
    (noSkipRange : MsgRange) : List Slice × Option (List Nat × MsgRange) × Int :=
  if noSkipRange.from_ = noSkipRange.till then (slices, none, 0)
  else
    addRangeMerge (slices.takeWhile fun s => s.range.till < noSkipRange.from_)
      ((slices.dropWhile fun s => s.range.till < noSkipRange.from_).takeWhile
        fun s => s.range.from_ ≤ noSkipRange.till)
      ((slices.dropWhile fun s => s.range.till < noSkipRange.from_).dropWhile
        fun s => s.range.from_ ≤ noSkipRange.till)
      messages noSkipRange

/-- The whole structure: `_slices` and `_count`. -/
structure SparseIdsList where
  slices : List Slice
  count : Option Int
deriving DecidableEq

/-- The count bookkeeping of `SparseIdsList::addRange` before the
full-knowledge check: an authoritative `count` overwrites, otherwise
`incrementCount` adds the number of new identifiers to a known count. -/
def addRangeCount (s : SparseIdsList) (count : Option Int) (incrementCount : Bool)
    (result : Int) : Option Int :=
  match count with
  | some c => some c
  | none =>
    match s.count with
    | some old =>
      if incrementCount then (if 0 < result then some (old + result) else some old)
      else some old
    | none => none

/-- The full-knowledge check of `SparseIdsList::addRange`: a single slice
spanning the whole space forces the count to its exact size. -/
def applyFullCheck (slices : List Slice) (count : Option Int) : Option Int :=
  match slices with
  | [sl] => if sl.range = ⟨0, ServerMaxMsgId⟩ then some (sl.messages.length : Int) else count
  | _ => count

/-- `SparseIdsList::addRange`: merge, update the count, run the
full-knowledge check and fire exactly one `_sliceUpdated` event. -/
def addRange (s : SparseIdsList) (messages : List Nat) (noSkipRange : MsgRange)
    (count : Option Int) (incrementCount : Bool) :
    SparseIdsList × List SparseIdsSliceUpdate :=
  match addRangeItemsAndCountNew s.slices messages noSkipRange with
  | (slices', payload, result) =>
    ⟨⟨slices', applyFullCheck slices' (addRangeCount s count incrementCount result)⟩,
      [⟨payload.map Prod.fst, (payload.map Prod.snd).getD ⟨0, 0⟩,
        applyFullCheck slices' (addRangeCount s count incrementCount result)⟩]⟩

/-- `SparseIdsList::addNew`. -/
def addNew (s : SparseIdsList) (messageId : Nat) :
    SparseIdsList × List SparseIdsSliceUpdate :=
  addRange s [messageId] ⟨messageId, ServerMaxMsgId⟩ none true

/-- `SparseIdsList::addExisting`. -/
def addExisting (s : SparseIdsList) (messageId : Nat) (noSkipRange : MsgRange) :
    SparseIdsList × List SparseIdsSliceUpdate :=
  addRange s [messageId] noSkipRange none false

/-- `SparseIdsList::addSlice`. -/
def addSlice (s : SparseIdsList) (messageIds : List Nat) (noSkipRange : MsgRange)
    (count : Option Int) : SparseIdsList × List SparseIdsSliceUpdate :=
  addRange s messageIds noSkipRange count false

/-- `SparseIdsList::removeOne`: binary-search the slice whose range could
contain the identifier, erase the identifier from it when the range really
starts at or before it, and decrement a known count unconditionally.
The C++ function fires no `_sliceUpdated` event. -/
def removeOne (s : SparseIdsList) (messageId : Nat) :
    SparseIdsList × List SparseIdsSliceUpdate :=
  ⟨⟨match s.slices.dropWhile (fun sl => sl.range.till < messageId) with
    | [] => s.slices
    | sl :: tail =>
      if sl.range.from_ ≤ messageId then
        s.slices.takeWhile (fun sl => sl.range.till < messageId)
          ++ Slice.mk (sl.messages.erase messageId) sl.range :: tail
      else s.slices,
    match s.count with
    | some c => some (c - 1)
    | none => none⟩, []⟩

/-- `SparseIdsList::removeAll`: one empty slice spanning the whole space,
count reset to zero, no event fired. -/
def removeAll (_s : SparseIdsList) : SparseIdsList × List SparseIdsSliceUpdate :=
  ⟨⟨[Slice.mk [] ⟨0, ServerMaxMsgId⟩], some 0⟩, []⟩

/-- The default-constructed `SparseIdsList`. -/
def init : SparseIdsList := ⟨[], none⟩

/-- A query: anchor identifier (0 is the "unset" sentinel) and the two
window limits. -/
structure SparseIdsListQuery where
  aroundId : Nat
  limitBefore : Nat
  limitAfter : Nat
deriving DecidableEq

/-- A query result. -/
structure SparseIdsListResult where
  count : Option Int
  skippedBefore : Option Int
  skippedAfter : Option Int
  messageIds : List Nat
deriving DecidableEq

/-- Index of the first element `≥ id` in a sorted list, as
`base::lower_bound` computes it. -/
def lowerBoundCount (messages : List Nat) (id : Nat) : Nat :=
  (messages.takeWhile fun m => m < id).length

/-- `haveBefore` of `SparseIdsList::queryFromSlice`. -/
def queryHaveBefore (q : SparseIdsListQuery) (slice : Slice) : Nat :=
  lowerBoundCount slice.messages q.aroundId

/-- `haveEqualOrAfter` of `SparseIdsList::queryFromSlice`. -/
def queryHaveEqualOrAfter (q : SparseIdsListQuery) (slice : Slice) : Nat :=
  slice.messages.length - queryHaveBefore q slice

/-- `before` of `SparseIdsList::queryFromSlice`. -/
def queryBefore (q : SparseIdsListQuery) (slice : Slice) : Nat :=
  min (queryHaveBefore q slice) q.limitBefore

/-- `equalOrAfter` of `SparseIdsList::queryFromSlice`. -/
def queryEqualOrAfter (q : SparseIdsListQuery) (slice : Slice) : Nat :=
  min (queryHaveEqualOrAfter q slice) (q.limitAfter + 1)

/-- The returned identifier window of `SparseIdsList::queryFromSlice`. -/
def queryIds (q : SparseIdsListQuery) (slice : Slice) : List Nat :=
  (slice.messages.drop (queryHaveBefore q slice - queryBefore q slice)).take
    (queryBefore q slice + queryEqualOrAfter q slice)

/-- `skippedBefore` as set directly by the boundary check of
`SparseIdsList::queryFromSlice`, before count reconciliation. -/
def querySkippedBefore (q : SparseIdsListQuery) (slice : Slice) : Option Int :=
  if slice.range.from_ = 0 then
    some ((queryHaveBefore q slice : Int) - (queryBefore q slice : Int))
  else none

/-- `skippedAfter` as set directly by the boundary check of
`SparseIdsList::queryFromSlice`, before count reconciliation. -/
def querySkippedAfter (q : SparseIdsListQuery) (slice : Slice) : Option Int :=
  if slice.range.till = ServerMaxMsgId then
    some ((queryHaveEqualOrAfter q slice : Int) - (queryEqualOrAfter q slice : Int))
  else none

/-- `SparseIdsList::queryFromSlice`: window extraction, boundary-gated skip
counts, then count reconciliation when `_count` is known. -/
def queryFromSlice (count : Option Int) (q : SparseIdsListQuery) (slice : Slice) :
    SparseIdsListResult :=
  match count with
  | none => ⟨none, querySkippedBefore q slice, querySkippedAfter q slice, queryIds q slice⟩
  | some c =>
    ⟨some c,
      if (querySkippedBefore q slice).isNone && (querySkippedAfter q slice).isSome then
        some (c - (querySkippedAfter q slice).getD 0 - ((queryIds q slice).length : Int))
      else querySkippedBefore q slice,
      if (querySkippedAfter q slice).isNone && (querySkippedBefore q slice).isSome then
        some (c - (querySkippedBefore q slice).getD 0 - ((queryIds q slice).length : Int))
      else querySkippedAfter q slice,
      queryIds q slice⟩

/-- `SparseIdsList::query`: with a non-zero anchor, binary-search the slice
whose range could contain it; answer from that slice when its range really
reaches the anchor, otherwise (and always for the unset anchor) emit the
count-only result when `_count` is known and nothing at all otherwise.
`none` models "no result pushed before `put_done`". -/
def query (s : SparseIdsList) (q : SparseIdsListQuery) : Option SparseIdsListResult :=
  match (if q.aroundId = 0 then none
      else (s.slices.dropWhile fun sl => sl.range.till < q.aroundId).head?) with
  | some sl =>
    if sl.range.from_ ≤ q.aroundId then some (queryFromSlice s.count q sl)
    else
      match s.count with
      | some c => some ⟨some c, none, none, []⟩
      | none => none
  | none =>
    match s.count with
    | some c => some ⟨some c, none, none, []⟩
    | none => none

/-- One public mutating call. -/
inductive Call where
  | addNew (messageId : Nat)
  | addExisting (messageId : Nat) (noSkipRange : MsgRange)
  | addSlice (messageIds : List Nat) (noSkipRange : MsgRange) (count : Option Int)
  | removeOne (messageId : Nat)
  | removeAll
deriving DecidableEq

/-- Identifier `m` lies inside the interval `r`. -/
def InRange (r : MsgRange) (m : Nat) : Prop :=
  r.from_ ≤ m ∧ m ≤ r.till

/-- All supplied identifiers lie inside the supplied known range (the
documented caller contract of the add operations). -/
def MsgsInRange (msgs : List Nat) (r : MsgRange) : Prop :=
  ∀ m ∈ msgs, InRange r m

/-- The documented precondition of each call (`Expects` clauses plus the
identifiers-within-range contract). -/
def Call.Valid : Call → Prop
  | .addNew id => id < ServerMaxMsgId
  | .addExisting id r => r.from_ < r.till ∧ r.from_ ≤ id ∧ id ≤ r.till
  | .addSlice ids r _ => r.from_ ≤ r.till ∧ (r.from_ = r.till → ids = []) ∧ MsgsInRange ids r
  | .removeOne _ => True
  | .removeAll => True

/-- Dispatch one call against the structure. -/
def Call.apply (s : SparseIdsList) : Call → SparseIdsList × List SparseIdsSliceUpdate
  | .addNew id => Storage.addNew s id
  | .addExisting id r => Storage.addExisting s id r
  | .addSlice ids r c => Storage.addSlice s ids r c
  | .removeOne id => Storage.removeOne s id
  | .removeAll => Storage.removeAll s

/-- The state after a sequence of calls starting from the default state. -/
def run (calls : List Call) : SparseIdsList :=
  calls.foldl (fun s c => (c.apply s).1) init

/-- Every call of a sequence satisfies its precondition. -/
def ValidAll (calls : List Call) : Prop :=
  ∀ c ∈ calls, c.Valid

/-- Any two stored slices, in storage order, neither overlap nor touch. -/
def SlicesOrdered (l : List Slice) : Prop :=
  l.Pairwise fun a b => a.range.till < b.range.from_

/-- Structural well-formedness of one slice: non-degenerate range,
strictly sorted identifier set, identifiers within the range. -/
def SliceWf (s : Slice) : Prop :=
  s.range.from_ < s.range.till ∧ s.messages.Pairwise (· < ·) ∧ MsgsInRange s.messages s.range

/-- Every stored identifier lies within its slice's range. -/
def MessagesInRange (l : List Slice) : Prop :=
  ∀ s ∈ l, MsgsInRange s.messages s.range

/-- The full structural invariant of the slice list. -/
def Wf (l : List Slice) : Prop :=
  SlicesOrdered l ∧ ∀ s ∈ l, SliceWf s

/-- Every slice of `l` starts strictly after `x`. -/
def BoundedBelow (l : List Slice) (x : Nat) : Prop :=
  ∀ s ∈ l, x < s.range.from_

/-- Every slice of `l` ends strictly before `x`. -/
def BoundedAbove (l : List Slice) (x : Nat) : Prop :=
  ∀ s ∈ l, s.range.till < x

/-- Every slice of `l` is strictly separated (no overlap, no touching)
from the interval `r`. -/
def SeparatedFrom (l : List Slice) (r : MsgRange) : Prop :=
  ∀ s ∈ l, s.range.till < r.from_ ∨ r.till < s.range.from_

instance (r : MsgRange) (m : Nat) : Decidable (InRange r m) :=
  inferInstanceAs (Decidable (_ ∧ _))

instance (msgs : List Nat) (r : MsgRange) : Decidable (MsgsInRange msgs r) :=
  inferInstanceAs (Decidable (∀ m ∈ msgs, InRange r m))

instance : DecidableRel (fun a b : Slice => a.range.till < b.range.from_) :=
  fun _ _ => Nat.decLt _ _

instance (l : List Slice) : Decidable (SlicesOrdered l) :=
  inferInstanceAs (Decidable (l.Pairwise _))

instance (s : Slice) : Decidable (SliceWf s) :=
  inferInstanceAs (Decidable (_ ∧ _ ∧ _))

instance (l : List Slice) : Decidable (MessagesInRange l) :=
  inferInstanceAs (Decidable (∀ s ∈ l, MsgsInRange s.messages s.range))

instance (l : List Slice) : Decidable (Wf l) :=
  inferInstanceAs (Decidable (_ ∧ ∀ s ∈ l, SliceWf s))

instance (l : List Slice) (x : Nat) : Decidable (BoundedBelow l x) :=
  inferInstanceAs (Decidable (∀ s ∈ l, _))

instance (l : List Slice) (x : Nat) : Decidable (BoundedAbove l x) :=
  inferInstanceAs (Decidable (∀ s ∈ l, _))

instance (l : List Slice) (r : MsgRange) : Decidable (SeparatedFrom l r) :=
  inferInstanceAs (Decidable (∀ s ∈ l, _ ∨ _))

instance (c : Call) : Decidable c.Valid :=
  match c with
  | .addNew id => inferInstanceAs (Decidable (id < ServerMaxMsgId))
  | .addExisting _ _ => inferInstanceAs (Decidable (_ ∧ _ ∧ _))
  | .addSlice _ _ _ => inferInstanceAs (Decidable (_ ∧ _ ∧ _))
  | .removeOne _ => inferInstanceAs (Decidable True)
  | .removeAll => inferInstanceAs (Decidable True)

instance (calls : List Call) : Decidable (ValidAll calls) :=
  inferInstanceAs (Decidable (∀ c ∈ calls, c.Valid))

/-! ### Generic `takeWhile` / `dropWhile` helpers -/

theorem takeWhile_middle {α} (p : α → Bool) (l₁ l₂ : List α) (x : α)
    (h₁ : ∀ a ∈ l₁, p a = true) (hx : p x = false) :
    (l₁ ++ x :: l₂).takeWhile p = l₁ := by
  induction l₁ with
  | nil => simp [List.takeWhile_cons, hx]
  | cons a t ih =>
    have ha : p a = true := h₁ a (by simp)
    simp only [List.cons_append, List.takeWhile_cons, ha, if_true]
    rw [ih fun b hb => h₁ b (by simp [hb])]

theorem dropWhile_middle {α} (p : α → Bool) (l₁ l₂ : List α) (x : α)
    (h₁ : ∀ a ∈ l₁, p a = true) (hx : p x = false) :
    (l₁ ++ x :: l₂).dropWhile p = x :: l₂ := by
  induction l₁ with
  | nil => simp [List.dropWhile_cons, hx]
  | cons a t ih =>
    have ha : p a = true := h₁ a (by simp)
    simp only [List.cons_append, List.dropWhile_cons, ha, if_true]
    exact ih fun b hb => h₁ b (by simp [hb])

theorem takeWhile_eq_nil_of_false {α} (p : α → Bool) (l : List α)
    (h : ∀ a ∈ l, p a = false) : l.takeWhile p = [] := by
  cases l with
  | nil => rfl
  | cons a t => simp [List.takeWhile_cons, h a (by simp)]

theorem dropWhile_eq_self_of_false {α} (p : α → Bool) (l : List α)
    (h : ∀ a ∈ l, p a = false) : l.dropWhile p = l := by
  cases l with
  | nil => rfl
  | cons a t => simp [List.dropWhile_cons, h a (by simp)]

theorem dropWhile_eq_self_of_takeWhile_nil {α} (p : α → Bool) (l : List α)
    (h : l.takeWhile p = []) : l.dropWhile p = l := by
  cases l with
  | nil => rfl
  | cons a t =>
    by_cases ha : p a
    · simp [List.takeWhile_cons, ha] at h
    · simp [List.dropWhile_cons, ha]

/-! ### Sorted-set (`flat_set<MsgId>`) lemmas -/

theorem insertSorted_mem (x a : Nat) (l : List Nat) :
    a ∈ insertSorted x l ↔ a = x ∨ a ∈ l := by
  induction l with
  | nil => simp [insertSorted]
  | cons y ys ih =>
    unfold insertSorted
    split_ifs with h1 h2
    · simp only [List.mem_cons]
    · subst h2
      simp only [List.mem_cons]
      tauto
    · simp only [List.mem_cons, ih]
      tauto

theorem insertSorted_pairwise (x : Nat) (l : List Nat)
    (h : l.Pairwise (· < ·)) : (insertSorted x l).Pairwise (· < ·) := by
  induction l with
  | nil => simp [insertSorted]
  | cons y ys ih =>
    rw [List.pairwise_cons] at h
    obtain ⟨hy, hys⟩ := h
    by_cases h1 : x < y
    · simp only [insertSorted, if_pos h1]
      exact List.Pairwise.cons
        (by intro b hb; rcases List.mem_cons.mp hb with rfl | hb
            · exact h1
            · exact h1.trans (hy b hb))
        (List.Pairwise.cons hy hys)
    · by_cases h2 : x = y
      · simp only [insertSorted, if_neg h1, if_pos h2]
        exact List.Pairwise.cons hy hys
      · have hyx : y < x := by omega
        simp only [insertSorted, if_neg h1, if_neg h2]
        refine List.Pairwise.cons ?_ (ih hys)
        intro b hb
        rcases (insertSorted_mem x b ys).mp hb with rfl | hb
        · exact hyx
        · exact hy b hb

theorem insertSorted_eq_of_mem (x : Nat) (l : List Nat)
    (hs : l.Pairwise (· < ·)) (hx : x ∈ l) : insertSorted x l = l := by
  induction l with
  | nil => cases hx
  | cons y ys ih =>
    rw [List.pairwise_cons] at hs
    obtain ⟨hy, hys⟩ := hs
    rcases List.mem_cons.mp hx with rfl | hx
    · simp [insertSorted]
    · have hyx : y < x := hy x hx
      have h1 : ¬ x < y := by omega
      have h2 : ¬ x = y := by omega
      simp only [insertSorted, if_neg h1, if_neg h2]
      rw [ih hys hx]

theorem uniteSorted_mem (s more : List Nat) (a : Nat) :
    a ∈ uniteSorted s more ↔ a ∈ s ∨ a ∈ more := by
  induction more generalizing s with
  | nil => simp [uniteSorted]
  | cons m ms ih =>
    simp only [uniteSorted, List.foldl_cons] at ih ⊢
    rw [ih (insertSorted m s), insertSorted_mem]
    simp only [List.mem_cons]
    tauto

theorem uniteSorted_pairwise (s more : List Nat)
    (h : s.Pairwise (· < ·)) : (uniteSorted s more).Pairwise (· < ·) := by
  induction more generalizing s with
  | nil => exact h
  | cons m ms ih =>
    simp only [uniteSorted, List.foldl_cons] at ih ⊢
    exact ih _ (insertSorted_pairwise m s h)

theorem uniteSorted_eq_of_subset (s more : List Nat)
    (hs : s.Pairwise (· < ·)) (h : ∀ x ∈ more, x ∈ s) : uniteSorted s more = s := by
  induction more with
  | nil => rfl
  | cons m ms ih =>
    simp only [uniteSorted, List.foldl_cons]
    rw [insertSorted_eq_of_mem m s hs (h m (by simp))]
    exact ih fun x hx => h x (by simp [hx])

/-! ### `Slice.merge` and fused-run (`foldl merge`) lemmas -/

theorem merge_wf (s : Slice) (more : List Nat) (mr : MsgRange)
    (hs : SliceWf s) (hmore : MsgsInRange more mr) : SliceWf (s.merge more mr) := by
  obtain ⟨hft, hsort, hin⟩ := hs
  refine ⟨?_, uniteSorted_pairwise _ _ hsort, ?_⟩
  · exact lt_of_le_of_lt (min_le_left _ _) (lt_of_lt_of_le hft (le_max_left _ _))
  · intro m hmem
    rcases (uniteSorted_mem _ _ _).mp hmem with h | h
    · obtain ⟨h1, h2⟩ := hin m h
      exact ⟨le_trans (min_le_left _ _) h1, le_trans h2 (le_max_left _ _)⟩
    · obtain ⟨h1, h2⟩ := hmore m h
      exact ⟨le_trans (min_le_right _ _) h1, le_trans h2 (le_max_right _ _)⟩

theorem foldMerge_from_le (l : List Slice) (acc : Slice) :
    (l.foldl (fun a s => a.merge s.messages s.range) acc).range.from_ ≤ acc.range.from_ := by
  induction l generalizing acc with
  | nil => exact le_refl _
  | cons h t ih =>
    simp only [List.foldl_cons]
    exact le_trans (ih _) (min_le_left _ _)

theorem foldMerge_till_le (l : List Slice) (acc : Slice) :
    acc.range.till ≤ (l.foldl (fun a s => a.merge s.messages s.range) acc).range.till := by
  induction l generalizing acc with
  | nil => exact le_refl _
  | cons h t ih =>
    simp only [List.foldl_cons]
    exact le_trans (le_max_left acc.range.till h.range.till)
      (ih (acc.merge h.messages h.range))

theorem foldMerge_mem (l : List Slice) (acc : Slice) (a : Nat) (ha : a ∈ acc.messages) :
    a ∈ (l.foldl (fun a s => a.merge s.messages s.range) acc).messages := by
  induction l generalizing acc with
  | nil => exact ha
  | cons h t ih =>
    simp only [List.foldl_cons]
    exact ih _ ((uniteSorted_mem _ _ _).mpr (Or.inl ha))

theorem foldMerge_from_bound (l : List Slice) (acc : Slice) (b : Nat)
    (h1 : b < acc.range.from_) (h2 : ∀ s ∈ l, b < s.range.from_) :
    b < (l.foldl (fun a s => a.merge s.messages s.range) acc).range.from_ := by
  induction l generalizing acc with
  | nil => exact h1
  | cons h t ih =>
    simp only [List.foldl_cons]
    exact ih _ (lt_min h1 (h2 h (by simp))) fun s hs => h2 s (by simp [hs])

theorem foldMerge_till_bound (l : List Slice) (acc : Slice) (c : Nat)
    (h1 : acc.range.till < c) (h2 : ∀ s ∈ l, s.range.till < c) :
    (l.foldl (fun a s => a.merge s.messages s.range) acc).range.till < c := by
  induction l generalizing acc with
  | nil => exact h1
  | cons h t ih =>
    simp only [List.foldl_cons]
    exact ih _ (max_lt h1 (h2 h (by simp))) fun s hs => h2 s (by simp [hs])

theorem foldMerge_wf (l : List Slice) (acc : Slice) (hacc : SliceWf acc)
    (hl : ∀ s ∈ l, MsgsInRange s.messages s.range) :
    SliceWf (l.foldl (fun a s => a.merge s.messages s.range) acc) := by
  induction l generalizing acc with
  | nil => exact hacc
  | cons h t ih =>
    simp only [List.foldl_cons]
    exact ih _ (merge_wf _ _ _ hacc (hl h (by simp))) fun s hs => hl s (by simp [hs])

/-! ### Bounds on the pieces produced by the binary-search splits -/

theorem boundedBelow_dropWhile_le (x : Nat) (l : List Slice) (hord : SlicesOrdered l)
    (hft : ∀ s ∈ l, s.range.from_ < s.range.till) :
    BoundedBelow (l.dropWhile fun s => s.range.from_ ≤ x) x := by
  induction l with
  | nil => intro s hs; simp at hs
  | cons h t ih =>
    rw [SlicesOrdered, List.pairwise_cons] at hord
    obtain ⟨hh, hord'⟩ := hord
    by_cases hq : h.range.from_ ≤ x
    · have hrw : List.dropWhile (fun s => decide (s.range.from_ ≤ x)) (h :: t)
          = List.dropWhile (fun s => decide (s.range.from_ ≤ x)) t := by
        simp [List.dropWhile_cons, hq]
      rw [hrw]
      exact ih hord' fun s hs => hft s (by simp [hs])
    · have hrw : List.dropWhile (fun s => decide (s.range.from_ ≤ x)) (h :: t)
          = h :: t := by
        simp [List.dropWhile_cons, hq]
      rw [hrw]
      intro s hs
      rcases List.mem_cons.mp hs with rfl | hs
      · omega
      · have := hh s hs
        have := hft h (by simp)
        omega

theorem boundedBelow_dropWhile_sep (r : MsgRange) (l : List Slice) (hord : SlicesOrdered l)
    (hft : ∀ s ∈ l, s.range.from_ < s.range.till) (hsep : SeparatedFrom l r) :
    BoundedBelow (l.dropWhile fun s => s.range.till < r.from_) r.till := by
  induction l with
  | nil => intro s hs; simp at hs
  | cons h t ih =>
    rw [SlicesOrdered, List.pairwise_cons] at hord
    obtain ⟨hh, hord'⟩ := hord
    by_cases hp : h.range.till < r.from_
    · have hrw : List.dropWhile (fun s => decide (s.range.till < r.from_)) (h :: t)
          = List.dropWhile (fun s => decide (s.range.till < r.from_)) t := by
        simp [List.dropWhile_cons, hp]
      rw [hrw]
      exact ih hord' (fun s hs => hft s (by simp [hs])) fun s hs => hsep s (by simp [hs])
    · have hrw : List.dropWhile (fun s => decide (s.range.till < r.from_)) (h :: t)
          = h :: t := by
        simp [List.dropWhile_cons, hp]
      rw [hrw]
      have hhb : r.till < h.range.from_ := by
        rcases hsep h (by simp) with h1 | h1
        · omega
        · exact h1
      intro s hs
      rcases List.mem_cons.mp hs with rfl | hs
      · exact hhb
      · have := hh s hs
        have := hft h (by simp)
        omega

/-! ### Structure of a non-trivial `addRangeItemsAndCountNew` call -/

theorem addRangeItems_struct (l : List Slice) (msgs : List Nat) (r : MsgRange)
    (hwf : Wf l) (hlt : r.from_ < r.till) (hm : MsgsInRange msgs r) :
    ∃ B f A,
      (addRangeItemsAndCountNew l msgs r).1 = B ++ f :: A ∧
      BoundedAbove B r.from_ ∧
      BoundedBelow A r.till ∧
      f.range.from_ ≤ r.from_ ∧ r.till ≤ f.range.till ∧
      (∀ m ∈ msgs, m ∈ f.messages) ∧
      Wf (B ++ f :: A) := by
  obtain ⟨hord, hsw⟩ := hwf
  have hne : ¬ (r.from_ = r.till) := by omega
  have hft : ∀ s ∈ l, s.range.from_ < s.range.till := fun s hs => (hsw s hs).1
  have hBsub : ∀ s ∈ l.takeWhile (fun s => decide (s.range.till < r.from_)), s ∈ l :=
    fun s hs => (List.takeWhile_sublist _).subset hs
  have hRsub : ∀ s ∈ l.dropWhile (fun s => decide (s.range.till < r.from_)), s ∈ l :=
    fun s hs => (List.dropWhile_sublist _).subset hs
  have hMsub : ∀ s ∈ (l.dropWhile fun s => s.range.till < r.from_).takeWhile
      (fun s => decide (s.range.from_ ≤ r.till)),
      s ∈ l.dropWhile (fun s => decide (s.range.till < r.from_)) :=
    fun s hs => (List.takeWhile_sublist _).subset hs
  have hAsub : ∀ s ∈ (l.dropWhile fun s => s.range.till < r.from_).dropWhile
      (fun s => decide (s.range.from_ ≤ r.till)),
      s ∈ l.dropWhile (fun s => decide (s.range.till < r.from_)) :=
    fun s hs => (List.dropWhile_sublist _).subset hs
  have hBfact : BoundedAbove (l.takeWhile fun s => s.range.till < r.from_) r.from_ := by
    intro s hs
    have h := List.mem_takeWhile_imp hs
    exact of_decide_eq_true h
  have hMfact : ∀ s ∈ (l.dropWhile fun s => s.range.till < r.from_).takeWhile
      (fun s => decide (s.range.from_ ≤ r.till)), s.range.from_ ≤ r.till := by
    intro s hs
    have h := List.mem_takeWhile_imp hs
    exact of_decide_eq_true h
  have hordR : SlicesOrdered (l.dropWhile fun s => s.range.till < r.from_) :=
    hord.sublist (List.dropWhile_sublist _)
  have hAfact : BoundedBelow ((l.dropWhile fun s => s.range.till < r.from_).dropWhile
      fun s => s.range.from_ ≤ r.till) r.till :=
    boundedBelow_dropWhile_le r.till _ hordR fun s hs => hft s (hRsub s hs)
  have hordl := hord
  rw [← List.takeWhile_append_dropWhile (fun s => decide (s.range.till < r.from_)) l,
    ← List.takeWhile_append_dropWhile (fun s => decide (s.range.from_ ≤ r.till))
      (l.dropWhile fun s => s.range.till < r.from_)] at hordl
  rw [SlicesOrdered, List.pairwise_append] at hordl
  obtain ⟨hpB, hpMA, hcross⟩ := hordl
  rw [List.pairwise_append] at hpMA
  obtain ⟨hpM, hpA, hcrossMA⟩ := hpMA
  cases hMeq : (l.dropWhile fun s => s.range.till < r.from_).takeWhile
      (fun s => decide (s.range.from_ ≤ r.till)) with
  | nil =>
    have hAR : (l.dropWhile fun s => s.range.till < r.from_).dropWhile
        (fun s => decide (s.range.from_ ≤ r.till))
        = l.dropWhile fun s => s.range.till < r.from_ :=
      dropWhile_eq_self_of_takeWhile_nil _ _ hMeq
    refine ⟨l.takeWhile fun s => s.range.till < r.from_,
      ⟨uniteSorted [] msgs, r⟩,
      (l.dropWhile fun s => s.range.till < r.from_).dropWhile
        fun s => s.range.from_ ≤ r.till,
      ?_, hBfact, hAfact, le_refl _, le_refl _, ?_, ?_, ?_⟩
    · simp only [addRangeItemsAndCountNew, if_neg hne, hMeq, addRangeMerge]
    · intro m hmm
      exact (uniteSorted_mem _ _ _).mpr (Or.inr hmm)
    · rw [SlicesOrdered, List.pairwise_append, List.pairwise_cons]
      refine ⟨hpB, ⟨fun a ha => hAfact a ha, hpA⟩, ?_⟩
      intro b hb y hy
      rcases List.mem_cons.mp hy with rfl | hy
      · exact hBfact b hb
      · exact hcross b hb y (by rw [hMeq]; simpa using hy)
    · intro s hs
      rcases List.mem_append.mp hs with hs | hs
      · exact hsw s (hBsub s hs)
      · rcases List.mem_cons.mp hs with rfl | hs
        · refine ⟨hlt, uniteSorted_pairwise _ _ List.Pairwise.nil, ?_⟩
          intro m hmm
          rcases (uniteSorted_mem _ _ _).mp hmm with h | h
          · simp at h
          · exact hm m h
        · exact hsw s (hRsub s (hAsub s hs))
  | cons first others =>
    have hfirstM : first ∈ (l.dropWhile fun s => s.range.till < r.from_).takeWhile
        (fun s => decide (s.range.from_ ≤ r.till)) := by
      rw [hMeq]; simp
    have hothersM : ∀ s ∈ others,
        s ∈ (l.dropWhile fun s => s.range.till < r.from_).takeWhile
          (fun s => decide (s.range.from_ ≤ r.till)) := by
      intro s hs; rw [hMeq]; simp [hs]
    have hfirstl : first ∈ l := hRsub _ (hMsub _ hfirstM)
    have hswfirst : SliceWf first := hsw _ hfirstl
    refine ⟨l.takeWhile fun s => s.range.till < r.from_,
      others.foldl (fun acc s => acc.merge s.messages s.range) (first.merge msgs r),
      (l.dropWhile fun s => s.range.till < r.from_).dropWhile
        fun s => s.range.from_ ≤ r.till,
      ?_, hBfact, hAfact, ?_, ?_, ?_, ?_, ?_⟩
    · simp only [addRangeItemsAndCountNew, if_neg hne, hMeq, addRangeMerge, uniteAndAdd]
    · exact le_trans (foldMerge_from_le others (first.merge msgs r))
        (min_le_right first.range.from_ r.from_)
    · exact le_trans (le_max_right first.range.till r.till)
        (foldMerge_till_le others (first.merge msgs r))
    · intro m hmm
      exact foldMerge_mem others _ m ((uniteSorted_mem _ _ _).mpr (Or.inr hmm))
    · rw [SlicesOrdered, List.pairwise_append, List.pairwise_cons]
      refine ⟨hpB, ⟨?_, hpA⟩, ?_⟩
      · intro a ha
        refine foldMerge_till_bound others (first.merge msgs r) a.range.from_
          (max_lt ?_ (hAfact a ha)) ?_
        · exact hcrossMA first hfirstM a ha
        · exact fun s hs => hcrossMA s (hothersM s hs) a ha
      · intro b hb y hy
        rcases List.mem_cons.mp hy with rfl | hy
        · refine foldMerge_from_bound others (first.merge msgs r) b.range.till
            (lt_min ?_ (hBfact b hb)) ?_
          · exact hcross b hb first (List.mem_append_left _ hfirstM)
          · exact fun s hs => hcross b hb s (List.mem_append_left _ (hothersM s hs))
        · exact hcross b hb y (List.mem_append_right _ hy)
    · intro s hs
      rcases List.mem_append.mp hs with hs | hs
      · exact hsw s (hBsub s hs)
      · rcases List.mem_cons.mp hs with rfl | hs
        · refine foldMerge_wf others (first.merge msgs r)
            (merge_wf first msgs r hswfirst hm) ?_
          exact fun s hs => (hsw s (hRsub _ (hMsub _ (hothersM s hs)))).2.2
        · exact hsw s (hRsub s (hAsub s hs))

/-- Re-adding data already covered by one stored slice leaves the structure
unchanged and reports zero new identifiers. -/
theorem addRangeItems_covered (B A : List Slice) (f : Slice) (msgs : List Nat) (r : MsgRange)
    (hwf : Wf (B ++ f :: A)) (hB : BoundedAbove B r.from_) (hA : BoundedBelow A r.till)
    (hf1 : f.range.from_ ≤ r.from_) (hf2 : r.till ≤ f.range.till)
    (hfm : ∀ m ∈ msgs, m ∈ f.messages) (hlt : r.from_ < r.till) :
    addRangeItemsAndCountNew (B ++ f :: A) msgs r
      = (B ++ f :: A, some (f.messages, f.range), 0) := by
  have hne : ¬ (r.from_ = r.till) := by omega
  have hsf : SliceWf f := hwf.2 f (by simp)
  have htake : (B ++ f :: A).takeWhile (fun s => decide (s.range.till < r.from_)) = B :=
    takeWhile_middle _ B A f (fun a ha => decide_eq_true (hB a ha))
      (decide_eq_false (by omega))
  have hdrop : (B ++ f :: A).dropWhile (fun s => decide (s.range.till < r.from_)) = f :: A :=
    dropWhile_middle _ B A f (fun a ha => decide_eq_true (hB a ha))
      (decide_eq_false (by omega))
  have hqf : decide (f.range.from_ ≤ r.till) = true := decide_eq_true (by omega)
  have hAfalse : ∀ a ∈ A, (fun s : Slice => decide (s.range.from_ ≤ r.till)) a = false :=
    fun a ha => decide_eq_false (by have := hA a ha; omega)
  have htA : A.takeWhile (fun s => decide (s.range.from_ ≤ r.till)) = [] :=
    takeWhile_eq_nil_of_false _ _ hAfalse
  have hdA : A.dropWhile (fun s => decide (s.range.from_ ≤ r.till)) = A :=
    dropWhile_eq_self_of_false _ _ hAfalse
  have htake2 : (f :: A).takeWhile (fun s => decide (s.range.from_ ≤ r.till)) = [f] := by
    rw [List.takeWhile_cons, hqf]
    simp [htA]
  have hdrop2 : (f :: A).dropWhile (fun s => decide (s.range.from_ ≤ r.till)) = A := by
    rw [List.dropWhile_cons, hqf]
    simp [hdA]
  have hmerge : f.merge msgs r = f := by
    unfold Slice.merge
    rw [uniteSorted_eq_of_subset _ _ hsf.2.1 hfm, min_eq_left hf1, max_eq_left hf2]
  simp only [addRangeItemsAndCountNew, if_neg hne, htake, hdrop, htake2, hdrop2,
    addRangeMerge, uniteAndAdd, List.foldl_nil, hmerge]
  simp

/-! ### Invariant preservation -/

theorem addRangeItems_wf (l : List Slice) (msgs : List Nat) (r : MsgRange)
    (hwf : Wf l) (hle : r.from_ ≤ r.till) (hm : MsgsInRange msgs r) :
    Wf (addRangeItemsAndCountNew l msgs r).1 := by
  by_cases he : r.from_ = r.till
  · unfold addRangeItemsAndCountNew
    rw [if_pos he]
    exact hwf
  · have hlt : r.from_ < r.till := lt_of_le_of_ne hle he
    obtain ⟨B, f, A, h1, _, _, _, _, _, h7⟩ := addRangeItems_struct l msgs r hwf hlt hm
    rw [h1]
    exact h7

theorem addRange_wf (s : SparseIdsList) (msgs : List Nat) (r : MsgRange)
    (count : Option Int) (ic : Bool) (hwf : Wf s.slices) (hle : r.from_ ≤ r.till)
    (hm : MsgsInRange msgs r) : Wf (addRange s msgs r count ic).1.slices := by
  have hw := addRangeItems_wf s.slices msgs r hwf hle hm
  rcases he : addRangeItemsAndCountNew s.slices msgs r with ⟨slices', payload, result⟩
  rw [he] at hw
  simp only [addRange, he]
  exact hw

theorem wf_replace (B T : List Slice) (sl sl' : Slice)
    (h : Wf (B ++ sl :: T)) (hr : sl'.range = sl.range) (hw : SliceWf sl') :
    Wf (B ++ sl' :: T) := by
  obtain ⟨ho, hs⟩ := h
  constructor
  · rw [SlicesOrdered, List.pairwise_append, List.pairwise_cons] at ho ⊢
    obtain ⟨h1, ⟨h2, h3⟩, h4⟩ := ho
    refine ⟨h1, ⟨?_, h3⟩, ?_⟩
    · intro a ha
      rw [hr]
      exact h2 a ha
    · intro b hb y hy
      rcases List.mem_cons.mp hy with rfl | hy
      · rw [hr]
        exact h4 b hb sl (by simp)
      · exact h4 b hb y (by simp [hy])
  · intro x hx
    rcases List.mem_append.mp hx with hx | hx
    · exact hs x (List.mem_append_left _ hx)
    · rcases List.mem_cons.mp hx with rfl | hx
      · exact hw
      · exact hs x (List.mem_append_right _ (by simp [hx]))

theorem removeOne_wf (s : SparseIdsList) (id : Nat) (hwf : Wf s.slices) :
    Wf (removeOne s id).1.slices := by
  simp only [removeOne]
  cases hd : s.slices.dropWhile (fun sl => decide (sl.range.till < id)) with
  | nil => exact hwf
  | cons sl tail =>
    by_cases hif : sl.range.from_ ≤ id
    · simp only [if_pos hif]
      have hsplit : s.slices
          = s.slices.takeWhile (fun sl => decide (sl.range.till < id)) ++ sl :: tail := by
        rw [← hd]
        exact (List.takeWhile_append_dropWhile _ _).symm
      have hwf' : Wf (s.slices.takeWhile (fun sl => decide (sl.range.till < id))
          ++ sl :: tail) := by
        rw [← hsplit]
        exact hwf
      have hsl : SliceWf sl := hwf'.2 sl (by simp)
      refine wf_replace _ _ sl _ hwf' rfl ?_
      refine ⟨hsl.1, hsl.2.1.sublist (List.erase_sublist _ _), ?_⟩
      intro m hm
      exact hsl.2.2 m (List.mem_of_mem_erase hm)
    · simp only [if_neg hif]
      exact hwf

theorem apply_wf (s : SparseIdsList) (c : Call) (hwf : Wf s.slices) (hc : c.Valid) :
    Wf (c.apply s).1.slices := by
  cases c with
  | addNew id =>
    have hv : id < ServerMaxMsgId := hc
    refine addRange_wf s [id] ⟨id, ServerMaxMsgId⟩ none true hwf (le_of_lt hv) ?_
    intro m hm
    have : m = id := by simpa using hm
    subst this
    exact ⟨le_refl _, le_of_lt hv⟩
  | addExisting id r =>
    obtain ⟨h1, h2, h3⟩ := hc
    refine addRange_wf s [id] r none false hwf (le_of_lt h1) ?_
    intro m hm
    have : m = id := by simpa using hm
    subst this
    exact ⟨h2, h3⟩
  | addSlice ids r c =>
    obtain ⟨h1, _, h3⟩ := hc
    exact addRange_wf s ids r c false hwf h1 h3
  | removeOne id => exact removeOne_wf s id hwf
  | removeAll => exact (by decide : Wf [Slice.mk [] ⟨0, ServerMaxMsgId⟩])

theorem run_wf (calls : List Call) (hv : ValidAll calls) : Wf (run calls).slices := by
  suffices h : ∀ (cs : List Call) (s : SparseIdsList), Wf s.slices → (∀ c ∈ cs, c.Valid) →
      Wf (cs.foldl (fun s c => (c.apply s).1) s).slices by
    exact h calls init (by decide) hv
  intro cs
  induction cs with
  | nil => exact fun s h _ => h
  | cons c cs ih =>
    intro s h hv
    simp only [List.foldl_cons]
    exact ih _ (apply_wf s c h (hv c (by simp))) fun c' hc' => hv c' (by simp [hc'])

/-! ### Claim theorems -/

/-- C1, counterexample: the claim says every `removeOne` call emits exactly
one Slice Update event, but the code's `removeOne` never fires
`_sliceUpdated`: on the empty structure (and on any other state) it emits
zero events, not one. -/
theorem c1_counterexample :
    (removeOne init 1).2.length = 0 ∧ ¬ (removeOne init 1).2.length = 1 := by
  decide

/-- C1, amended: each of `addNew`, `addExisting` and `addSlice` emits
exactly one Slice Update event per call, while `removeOne` and `removeAll`
emit none. -/
theorem c1_amended_events (s : SparseIdsList) (id : Nat) (r : MsgRange)
    (ids : List Nat) (c : Option Int) :
    (addNew s id).2.length = 1
    ∧ (addExisting s id r).2.length = 1
    ∧ (addSlice s ids r c).2.length = 1
    ∧ (removeOne s id).2.length = 0
    ∧ (removeAll s).2.length = 0 := by
  have key : ∀ (s' : SparseIdsList) (msgs : List Nat) (nr : MsgRange)
      (c' : Option Int) (ic : Bool), (addRange s' msgs nr c' ic).2.length = 1 := by
    intro s' msgs nr c' ic
    rcases he : addRangeItemsAndCountNew s'.slices msgs nr with ⟨a, b, d⟩
    simp [addRange, he]
  exact ⟨key s [id] ⟨id, ServerMaxMsgId⟩ none true, key s [id] r none false,
    key s ids r c false, rfl, rfl⟩

/-- C2, counterexample: the claim says a query with the unset-sentinel
anchor uses the last stored slice and returns a window from it; but with a
non-empty slice list holding `{5, 6}` the code returns the count-only
result (no identifiers at all), because the unset anchor makes the search
yield `_slices.end()`. -/
theorem c2_counterexample :
    (addSlice init [5, 6] ⟨4, 10⟩ (some 2)).1.slices ≠ []
    ∧ query (addSlice init [5, 6] ⟨4, 10⟩ (some 2)).1 ⟨0, 3, 3⟩
        = some ⟨some 2, none, none, []⟩ := by
  decide

/-- C2, amended: a query whose anchor is the unset sentinel never selects
a slice: it returns the count-only result when an estimate is known and
the empty result otherwise, regardless of the stored slices. -/
theorem c2_amended_unset_anchor (s : SparseIdsList) (q : SparseIdsListQuery)
    (h : q.aroundId = 0) :
    query s q = s.count.map fun c => ⟨some c, none, none, []⟩ := by
  simp only [query, h, if_pos]
  cases s.count <;> rfl

/-- C2 amended, witness: on a state with slices `{5, 6}` over `[4, 10]`
and count 2, the unset-anchor query returns exactly the count-only
result. -/
theorem c2_amended_witness :
    query (addSlice init [5, 6] ⟨4, 10⟩ (some 2)).1 ⟨0, 1, 1⟩
      = some ⟨some 2, none, none, []⟩ :=
  (c2_amended_unset_anchor _ _ rfl).trans (by decide)

/-- C3: after any finite sequence of valid mutating calls starting from
the empty structure, the stored slices are sorted, pairwise non-overlapping
and non-touching (`a.range.till < b.range.from_` for `a` before `b`), and
every stored identifier lies within its slice's range. -/
theorem c3_invariant (calls : List Call) (h : ValidAll calls) :
    SlicesOrdered (run calls).slices ∧ MessagesInRange (run calls).slices := by
  have hw := run_wf calls h
  exact ⟨hw.1, fun s hs => (hw.2 s hs).2.2⟩

/-- C3, witness: a concrete valid call sequence whose final state satisfies
the invariant. -/
theorem c3_witness :
    ValidAll [Call.addSlice [1, 2] ⟨1, 3⟩ none, Call.addExisting 5 ⟨4, 6⟩,
      Call.removeOne 1]
    ∧ (SlicesOrdered (run [Call.addSlice [1, 2] ⟨1, 3⟩ none, Call.addExisting 5 ⟨4, 6⟩,
        Call.removeOne 1]).slices
      ∧ MessagesInRange (run [Call.addSlice [1, 2] ⟨1, 3⟩ none, Call.addExisting 5 ⟨4, 6⟩,
        Call.removeOne 1]).slices) :=
  ⟨by decide, c3_invariant _ (by decide)⟩

/-- C5: `removeOne` decrements a known total-count estimate by exactly 1,
for every state and every identifier (present or absent), and leaves an
absent estimate absent. -/
theorem c5_removeOne_count (s : SparseIdsList) (id : Nat) :
    (removeOne s id).1.count = s.count.map fun n => n - 1 := by
  simp only [removeOne]
  cases s.count <;> rfl

/-- C6: after any of `addNew`, `addExisting`, `addSlice`, if the structure
holds exactly one slice spanning the whole space, the count equals that
slice's set size; in particular `addSlice {1,2,3} [0, MAX] (some 100)` on
the empty structure forces the count to 3, overriding the supplied 100. -/
theorem c6_full_knowledge_count :
    (∀ (s : SparseIdsList) (id : Nat) (sl : Slice),
      (addNew s id).1.slices = [sl] → sl.range = ⟨0, ServerMaxMsgId⟩ →
      (addNew s id).1.count = some (sl.messages.length : Int))
    ∧ (∀ (s : SparseIdsList) (id : Nat) (r : MsgRange) (sl : Slice),
      (addExisting s id r).1.slices = [sl] → sl.range = ⟨0, ServerMaxMsgId⟩ →
      (addExisting s id r).1.count = some (sl.messages.length : Int))
    ∧ (∀ (s : SparseIdsList) (ids : List Nat) (r : MsgRange) (c : Option Int) (sl : Slice),
      (addSlice s ids r c).1.slices = [sl] → sl.range = ⟨0, ServerMaxMsgId⟩ →
      (addSlice s ids r c).1.count = some (sl.messages.length : Int))
    ∧ (addSlice init [1, 2, 3] ⟨0, ServerMaxMsgId⟩ (some 100)).1.count = some 3 := by
  have key : ∀ (s : SparseIdsList) (msgs : List Nat) (r : MsgRange) (c : Option Int)
      (ic : Bool) (sl : Slice),
      (addRange s msgs r c ic).1.slices = [sl] → sl.range = ⟨0, ServerMaxMsgId⟩ →
      (addRange s msgs r c ic).1.count = some (sl.messages.length : Int) := by
    intro s msgs r c ic sl h1 h2
    rcases he : addRangeItemsAndCountNew s.slices msgs r with ⟨slices', payload, result⟩
    simp only [addRange, he] at h1 ⊢
    subst h1
    simp [applyFullCheck, h2]
  exact ⟨fun s id => key s [id] ⟨id, ServerMaxMsgId⟩ none true,
    fun s id r => key s [id] r none false,
    fun s ids r c => key s ids r c false,
    by decide⟩

/-- C6, witness: the concrete full-knowledge instance from the spec. -/
theorem c6_witness :
    (addSlice init [1, 2, 3] ⟨0, ServerMaxMsgId⟩ (some 100)).1.count
      = some (((Slice.mk [1, 2, 3] ⟨0, ServerMaxMsgId⟩).messages.length : Int)) :=
  c6_full_knowledge_count.2.2.1 init [1, 2, 3] ⟨0, ServerMaxMsgId⟩ (some 100)
    (Slice.mk [1, 2, 3] ⟨0, ServerMaxMsgId⟩) (by decide) rfl

/-- C10: the `removeOne` decrement is not clamped at zero: a known count
of 0 becomes −1, and a query finding no containing slice (anchor beyond
the whole space) returns that −1 as its count. -/
theorem c10_negative_count :
    (∀ (s : SparseIdsList) (id : Nat), s.count = some 0 →
      (removeOne s id).1.count = some (-1))
    ∧ query (removeOne (removeAll init).1 7).1 ⟨ServerMaxMsgId + 1, 1, 1⟩
        = some ⟨some (-1), none, none, []⟩ := by
  constructor
  · intro s id h
    simp only [removeOne, h]
    decide
  · decide

/-- C10, witness: immediately after `removeAll` the count is 0, and one
`removeOne` drives it to −1. -/
theorem c10_witness :
    (removeAll init).1.count = some 0
    ∧ (removeOne (removeAll init).1 7).1.count = some (-1) :=
  ⟨by decide, c10_negative_count.1 (removeAll init).1 7 (by decide)⟩

/-- C7: when a total-count estimate exists and exactly one of the directly
set skip counts is present, `queryFromSlice` derives the other as
`count − knownSkipped − windowSize`; when both are present or both absent,
neither is changed by reconciliation. -/
theorem c7_count_reconciliation (c : Int) (q : SparseIdsListQuery) (slice : Slice) :
    ((querySkippedBefore q slice = none → (querySkippedAfter q slice).isSome = true →
      (queryFromSlice (some c) q slice).skippedBefore
          = some (c - (querySkippedAfter q slice).getD 0 - ((queryIds q slice).length : Int))
        ∧ (queryFromSlice (some c) q slice).skippedAfter = querySkippedAfter q slice))
    ∧ (querySkippedAfter q slice = none → (querySkippedBefore q slice).isSome = true →
      (queryFromSlice (some c) q slice).skippedAfter
          = some (c - (querySkippedBefore q slice).getD 0 - ((queryIds q slice).length : Int))
        ∧ (queryFromSlice (some c) q slice).skippedBefore = querySkippedBefore q slice)
    ∧ ((querySkippedBefore q slice).isSome = true → (querySkippedAfter q slice).isSome = true →
      (queryFromSlice (some c) q slice).skippedBefore = querySkippedBefore q slice
        ∧ (queryFromSlice (some c) q slice).skippedAfter = querySkippedAfter q slice)
    ∧ (querySkippedBefore q slice = none → querySkippedAfter q slice = none →
      (queryFromSlice (some c) q slice).skippedBefore = none
        ∧ (queryFromSlice (some c) q slice).skippedAfter = none) := by
  rcases hB : querySkippedBefore q slice with _ | b <;>
    rcases hA : querySkippedAfter q slice with _ | a <;>
      simp [queryFromSlice, hB, hA]

/-- C7, witness: slice `{1,2,3}` over `[0,10]` with count 100 and anchor 2
has a direct `skippedBefore` only; `skippedAfter` is derived from the
count. -/
theorem c7_witness :
    (queryFromSlice (some 100) ⟨2, 1, 1⟩ (Slice.mk [1, 2, 3] ⟨0, 10⟩)).skippedAfter
      = some (100 - (querySkippedBefore ⟨2, 1, 1⟩ (Slice.mk [1, 2, 3] ⟨0, 10⟩)).getD 0
          - ((queryIds ⟨2, 1, 1⟩ (Slice.mk [1, 2, 3] ⟨0, 10⟩)).length : Int))
    ∧ (queryFromSlice (some 100) ⟨2, 1, 1⟩ (Slice.mk [1, 2, 3] ⟨0, 10⟩)).skippedBefore
      = querySkippedBefore ⟨2, 1, 1⟩ (Slice.mk [1, 2, 3] ⟨0, 10⟩) :=
  (c7_count_reconciliation 100 ⟨2, 1, 1⟩ (Slice.mk [1, 2, 3] ⟨0, 10⟩)).2.1
    (by decide) (by decide)

/-- C8: a containing slice whose range touches neither space bound yields
neither `skippedBefore` nor `skippedAfter`, with or without a count
estimate; `skippedBefore` is set directly (as `haveBefore − before`)
exactly when the range starts at 0, and `skippedAfter` directly exactly
when it reaches `ServerMaxMsgId`. -/
theorem c8_skip_gating (count : Option Int) (q : SparseIdsListQuery) (slice : Slice) :
    (slice.range.from_ ≠ 0 → slice.range.till ≠ ServerMaxMsgId →
      (queryFromSlice count q slice).skippedBefore = none
        ∧ (queryFromSlice count q slice).skippedAfter = none)
    ∧ (slice.range.from_ = 0 →
      (queryFromSlice count q slice).skippedBefore
        = some ((queryHaveBefore q slice : Int) - (queryBefore q slice : Int)))
    ∧ (slice.range.till = ServerMaxMsgId →
      (queryFromSlice count q slice).skippedAfter
        = some ((queryHaveEqualOrAfter q slice : Int) - (queryEqualOrAfter q slice : Int))) := by
  refine ⟨?_, ?_, ?_⟩
  · intro h1 h2
    have hB : querySkippedBefore q slice = none := by simp [querySkippedBefore, h1]
    have hA : querySkippedAfter q slice = none := by simp [querySkippedAfter, h2]
    cases count <;> simp [queryFromSlice, hB, hA]
  · intro h1
    have hB : querySkippedBefore q slice
        = some ((queryHaveBefore q slice : Int) - (queryBefore q slice : Int)) := by
      simp [querySkippedBefore, h1]
    cases count <;> simp [queryFromSlice, hB]
  · intro h2
    have hA : querySkippedAfter q slice
        = some ((queryHaveEqualOrAfter q slice : Int) - (queryEqualOrAfter q slice : Int)) := by
      simp [querySkippedAfter, h2]
    cases count <;> simp [queryFromSlice, hA]

/-- C8, witness: the spec's example, a slice over `[5, 50]`, reports
neither skip count even though an estimate (7) exists. -/
theorem c8_witness :
    (queryFromSlice (some 7) ⟨15, 1, 1⟩ (Slice.mk [10, 20] ⟨5, 50⟩)).skippedBefore = none
    ∧ (queryFromSlice (some 7) ⟨15, 1, 1⟩ (Slice.mk [10, 20] ⟨5, 50⟩)).skippedAfter = none :=
  (c8_skip_gating (some 7) ⟨15, 1, 1⟩ (Slice.mk [10, 20] ⟨5, 50⟩)).1
    (by decide) (by decide)

/-- C4: adding a range touching an existing slice at exactly one boundary
point fuses the two into one slice whose range is the min/max hull and
whose set is the union — in both orientations: the existing slice may end
where the added range begins (`b.range.till = r.from_`, the `lower_bound`
tie-break) or begin where the added range ends (`r.till = b.range.from_`,
the `upper_bound` tie-break); adding a range strictly separated from every
stored slice keeps all existing slices and inserts one new slice between
them. -/
theorem c4_merge_touching_and_disjoint :
    (∀ (pre post : List Slice) (b : Slice) (msgs : List Nat) (r : MsgRange),
      Wf (pre ++ b :: post) → b.range.till = r.from_ → r.from_ < r.till →
      BoundedBelow post r.till →
      (addRangeItemsAndCountNew (pre ++ b :: post) msgs r).1
          = pre ++ (b.merge msgs r) :: post
        ∧ (b.merge msgs r).range = ⟨min b.range.from_ r.from_, max b.range.till r.till⟩
        ∧ ∀ a, a ∈ (b.merge msgs r).messages ↔ a ∈ msgs ∨ a ∈ b.messages)
    ∧ (∀ (pre post : List Slice) (b : Slice) (msgs : List Nat) (r : MsgRange),
      Wf (pre ++ b :: post) → r.till = b.range.from_ → r.from_ < r.till →
      BoundedAbove pre r.from_ →
      (addRangeItemsAndCountNew (pre ++ b :: post) msgs r).1
          = pre ++ (b.merge msgs r) :: post
        ∧ (b.merge msgs r).range = ⟨min b.range.from_ r.from_, max b.range.till r.till⟩
        ∧ ∀ a, a ∈ (b.merge msgs r).messages ↔ a ∈ msgs ∨ a ∈ b.messages)
    ∧ (∀ (slices : List Slice) (msgs : List Nat) (r : MsgRange),
      Wf slices → r.from_ < r.till → SeparatedFrom slices r →
      (addRangeItemsAndCountNew slices msgs r).1
        = slices.takeWhile (fun s => s.range.till < r.from_)
          ++ Slice.mk (uniteSorted [] msgs) r
            :: slices.dropWhile (fun s => s.range.till < r.from_)) := by
  refine ⟨?_, ?_, ?_⟩
  · intro pre post b msgs r hwf htouch hlt hpost
    have hne : ¬ (r.from_ = r.till) := by omega
    have hbw : SliceWf b := hwf.2 b (by simp)
    have hbft : b.range.from_ < b.range.till := hbw.1
    have hord := hwf.1
    rw [SlicesOrdered, List.pairwise_append, List.pairwise_cons] at hord
    obtain ⟨hppre, ⟨hbpost, hppost⟩, hcross⟩ := hord
    have hpre : ∀ a ∈ pre, a.range.till < r.from_ := by
      intro a ha
      have h1 := hcross a ha b (by simp)
      omega
    have htake : (pre ++ b :: post).takeWhile (fun s => decide (s.range.till < r.from_))
        = pre :=
      takeWhile_middle _ pre post b (fun a ha => decide_eq_true (hpre a ha))
        (decide_eq_false (by omega))
    have hdrop : (pre ++ b :: post).dropWhile (fun s => decide (s.range.till < r.from_))
        = b :: post :=
      dropWhile_middle _ pre post b (fun a ha => decide_eq_true (hpre a ha))
        (decide_eq_false (by omega))
    have hqb : decide (b.range.from_ ≤ r.till) = true := decide_eq_true (by omega)
    have hpostfalse : ∀ a ∈ post,
        (fun s : Slice => decide (s.range.from_ ≤ r.till)) a = false :=
      fun a ha => decide_eq_false (by have := hpost a ha; omega)
    have htP : post.takeWhile (fun s => decide (s.range.from_ ≤ r.till)) = [] :=
      takeWhile_eq_nil_of_false _ _ hpostfalse
    have hdP : post.dropWhile (fun s => decide (s.range.from_ ≤ r.till)) = post :=
      dropWhile_eq_self_of_false _ _ hpostfalse
    have htake2 : (b :: post).takeWhile (fun s => decide (s.range.from_ ≤ r.till)) = [b] := by
      rw [List.takeWhile_cons, hqb]
      simp [htP]
    have hdrop2 : (b :: post).dropWhile (fun s => decide (s.range.from_ ≤ r.till)) = post := by
      rw [List.dropWhile_cons, hqb]
      simp [hdP]
    refine ⟨?_, rfl, ?_⟩
    · simp only [addRangeItemsAndCountNew, if_neg hne, htake, hdrop, htake2, hdrop2,
        addRangeMerge, uniteAndAdd, List.foldl_nil]
    · intro a
      have := uniteSorted_mem b.messages msgs a
      unfold Slice.merge
      tauto
  · intro pre post b msgs r hwf htouch hlt hpre
    have hne : ¬ (r.from_ = r.till) := by omega
    have hbw : SliceWf b := hwf.2 b (by simp)
    have hbft : b.range.from_ < b.range.till := hbw.1
    have hord := hwf.1
    rw [SlicesOrdered, List.pairwise_append, List.pairwise_cons] at hord
    obtain ⟨hppre, ⟨hbpost, hppost⟩, hcross⟩ := hord
    have htake : (pre ++ b :: post).takeWhile (fun s => decide (s.range.till < r.from_))
        = pre :=
      takeWhile_middle _ pre post b (fun a ha => decide_eq_true (hpre a ha))
        (decide_eq_false (by omega))
    have hdrop : (pre ++ b :: post).dropWhile (fun s => decide (s.range.till < r.from_))
        = b :: post :=
      dropWhile_middle _ pre post b (fun a ha => decide_eq_true (hpre a ha))
        (decide_eq_false (by omega))
    have hqb : decide (b.range.from_ ≤ r.till) = true := decide_eq_true (by omega)
    have hpostfalse : ∀ a ∈ post,
        (fun s : Slice => decide (s.range.from_ ≤ r.till)) a = false :=
      fun a ha => decide_eq_false (by have := hbpost a ha; omega)
    have htP : post.takeWhile (fun s => decide (s.range.from_ ≤ r.till)) = [] :=
      takeWhile_eq_nil_of_false _ _ hpostfalse
    have hdP : post.dropWhile (fun s => decide (s.range.from_ ≤ r.till)) = post :=
      dropWhile_eq_self_of_false _ _ hpostfalse
    have htake2 : (b :: post).takeWhile (fun s => decide (s.range.from_ ≤ r.till)) = [b] := by
      rw [List.takeWhile_cons, hqb]
      simp [htP]
    have hdrop2 : (b :: post).dropWhile (fun s => decide (s.range.from_ ≤ r.till)) = post := by
      rw [List.dropWhile_cons, hqb]
      simp [hdP]
    refine ⟨?_, rfl, ?_⟩
    · simp only [addRangeItemsAndCountNew, if_neg hne, htake, hdrop, htake2, hdrop2,
        addRangeMerge, uniteAndAdd, List.foldl_nil]
    · intro a
      have := uniteSorted_mem b.messages msgs a
      unfold Slice.merge
      tauto
  · intro slices msgs r hwf hlt hsep
    have hne : ¬ (r.from_ = r.till) := by omega
    have hAfact : BoundedBelow (slices.dropWhile fun s => s.range.till < r.from_) r.till :=
      boundedBelow_dropWhile_sep r slices hwf.1 (fun s hs => (hwf.2 s hs).1) hsep
    have hfalse : ∀ a ∈ slices.dropWhile (fun s => decide (s.range.till < r.from_)),
        (fun s : Slice => decide (s.range.from_ ≤ r.till)) a = false :=
      fun a ha => decide_eq_false (by have := hAfact a ha; omega)
    have htM : (slices.dropWhile (fun s => decide (s.range.till < r.from_))).takeWhile
        (fun s => decide (s.range.from_ ≤ r.till)) = [] :=
      takeWhile_eq_nil_of_false _ _ hfalse
    have hdM : (slices.dropWhile (fun s => decide (s.range.till < r.from_))).dropWhile
        (fun s => decide (s.range.from_ ≤ r.till))
        = slices.dropWhile (fun s => decide (s.range.till < r.from_)) :=
      dropWhile_eq_self_of_false _ _ hfalse
    simp only [addRangeItemsAndCountNew, if_neg hne, htM, hdM, addRangeMerge]

/-- C4, witness: the spec's examples in both touching orientations —
`{1,5}` over `[0,10]` plus `{12}` over `[10,20]` fuse into one slice
`{1,5,12}` over `[0,20]`; symmetrically, adding `{1,5}` over `[0,10]` to
an existing `{12}` over `[10,20]` fuses the same way; `{16}` over
`[15,20]` is inserted as a second slice, leaving `[0,10]` untouched. -/
theorem c4_witness :
    (addRangeItemsAndCountNew [Slice.mk [1, 5] ⟨0, 10⟩] [12] ⟨10, 20⟩).1
        = [Slice.mk [1, 5, 12] ⟨0, 20⟩]
    ∧ ((Slice.mk [1, 5] ⟨0, 10⟩).merge [12] ⟨10, 20⟩).range = ⟨0, 20⟩
    ∧ (addRangeItemsAndCountNew [Slice.mk [12] ⟨10, 20⟩] [1, 5] ⟨0, 10⟩).1
        = [Slice.mk [1, 5, 12] ⟨0, 20⟩]
    ∧ ((Slice.mk [12] ⟨10, 20⟩).merge [1, 5] ⟨0, 10⟩).range = ⟨0, 20⟩
    ∧ (addRangeItemsAndCountNew [Slice.mk [1, 5] ⟨0, 10⟩] [16] ⟨15, 20⟩).1
        = [Slice.mk [1, 5] ⟨0, 10⟩, Slice.mk [16] ⟨15, 20⟩] := by
  have h1 := c4_merge_touching_and_disjoint.1 [] [] (Slice.mk [1, 5] ⟨0, 10⟩) [12] ⟨10, 20⟩
    (by decide) (by decide) (by decide) (by decide)
  have h1m := c4_merge_touching_and_disjoint.2.1 [] [] (Slice.mk [12] ⟨10, 20⟩) [1, 5] ⟨0, 10⟩
    (by decide) (by decide) (by decide) (by decide)
  have h2 := c4_merge_touching_and_disjoint.2.2 [Slice.mk [1, 5] ⟨0, 10⟩] [16] ⟨15, 20⟩
    (by decide) (by decide) (by decide)
  exact ⟨h1.1.trans (by decide), h1.2.1.trans (by decide), h1m.1.trans (by decide),
    h1m.2.1.trans (by decide), h2.trans (by decide)⟩

/-- With zero new identifiers, the count bookkeeping keeps an authoritative
count and otherwise leaves the stored count unchanged. -/
theorem addRangeCount_zero (st : SparseIdsList) (count : Option Int) (ic : Bool) :
    addRangeCount st count ic 0
      = match count with
        | some c => some c
        | none => st.count := by
  cases count with
  | some c => rfl
  | none =>
    cases h : st.count with
    | none => simp [addRangeCount, h]
    | some old => simp [addRangeCount, h]

/-- The full-knowledge check is idempotent. -/
theorem applyFullCheck_idem (L : List Slice) (X : Option Int) :
    applyFullCheck L (applyFullCheck L X) = applyFullCheck L X := by
  rcases L with _ | ⟨a, _ | ⟨b, t⟩⟩
  · rfl
  · simp only [applyFullCheck]
    split_ifs <;> rfl
  · rfl

/-- C9: re-issuing the same `addRange` call (hence the same `addNew`,
`addExisting` or `addSlice` call) on a well-formed state yields the state
the first call produced, unchanged, and the second merge reports zero new
identifiers. -/
theorem c9_idempotent_add (s : SparseIdsList) (msgs : List Nat) (r : MsgRange)
    (count : Option Int) (ic : Bool) (hwf : Wf s.slices) (hle : r.from_ ≤ r.till)
    (hm : MsgsInRange msgs r) :
    (addRange (addRange s msgs r count ic).1 msgs r count ic).1
        = (addRange s msgs r count ic).1
    ∧ (addRangeItemsAndCountNew (addRange s msgs r count ic).1.slices msgs r).2.2 = 0 := by
  by_cases he : r.from_ = r.till
  · have hitems : ∀ L : List Slice, addRangeItemsAndCountNew L msgs r = (L, none, 0) := by
      intro L
      unfold addRangeItemsAndCountNew
      rw [if_pos he]
    constructor
    · simp only [addRange, hitems, addRangeCount_zero]
      cases count with
      | some c => rfl
      | none => simp [applyFullCheck_idem]
    · rw [hitems]
  · have hlt : r.from_ < r.till := lt_of_le_of_ne hle he
    obtain ⟨B, f, A, h1, hB, hA, hf1, hf2, hfm, hwf'⟩ :=
      addRangeItems_struct s.slices msgs r hwf hlt hm
    have hcov := addRangeItems_covered B A f msgs r hwf' hB hA hf1 hf2 hfm hlt
    rcases he1 : addRangeItemsAndCountNew s.slices msgs r with ⟨slices1, payload1, result1⟩
    rw [he1] at h1
    simp only at h1
    subst h1
    constructor
    · simp only [addRange, he1, hcov, addRangeCount_zero]
      cases count with
      | some c => rfl
      | none => simp [applyFullCheck_idem]
    · simp only [addRange, he1, hcov]

/-- C9, witness: adding `{4, 5}` over `[4, 6]` twice to the empty
structure equals adding it once, and the second merge reports zero new
identifiers. -/
theorem c9_witness :
    (addRange (addRange init [4, 5] ⟨4, 6⟩ none false).1 [4, 5] ⟨4, 6⟩ none false).1
        = (addRange init [4, 5] ⟨4, 6⟩ none false).1
    ∧ (addRangeItemsAndCountNew (addRange init [4, 5] ⟨4, 6⟩ none false).1.slices
        [4, 5] ⟨4, 6⟩).2.2 = 0 :=
  c9_idempotent_add init [4, 5] ⟨4, 6⟩ none false (by decide) (by decide) (by decide)

end Storage
